import Mathlib

/-!
Verification of the retrieval-and-normalization core of the apple-docs CLI.

The TypeScript sources are shallowly embedded: JS `Map`s become insertion
ordered association lists, `undefined`-able values become `Option`, thrown
errors become `Except` values, timestamps become `Nat`, and every embedded
function is an executable Lean `def` translated from the corresponding
source function.
-/

/-! ## Generic JS `Map` model (insertion-ordered association list) -/

/-- Lookup in a JS `Map` modelled as an association list (first match wins;
a JS `Map` holds each key at most once, which `mapSet` maintains). -/
def mapGet {α : Type} (m : List (String × α)) (k : String) : Option α :=
  match m with
  | [] => none
  | (k2, v) :: rest => if k2 = k then some v else mapGet rest k

/-- JS `Map.set`: update the existing entry in place, else append. -/
def mapSet {α : Type} (m : List (String × α)) (k : String) (v : α) :
    List (String × α) :=
  match m with
  | [] => [(k, v)]
  | (k2, v2) :: rest =>
    if k2 = k then (k, v) :: rest else (k2, v2) :: mapSet rest k v

/-- JS `Map.delete`: remove the entry for the key. -/
def mapDelete {α : Type} (m : List (String × α)) (k : String) :
    List (String × α) :=
  match m with
  | [] => []
  | (k2, v2) :: rest =>
    if k2 = k then rest else (k2, v2) :: mapDelete rest k

theorem mapGet_mapSet_self {α : Type} (m : List (String × α)) (k : String) (v : α) :
    mapGet (mapSet m k v) k = some v := by
  induction m with
  | nil => simp [mapSet, mapGet]
  | cons p rest ih =>
    by_cases h : p.1 = k
    · simp [mapSet, mapGet, h]
    · simp [mapSet, mapGet, h, ih]

/-! ## Cache (src/lib/cache.ts, provided as an unnamed source file)

`CacheEntry` stores an opaque value (modelled as `String`) with an absolute
expiry timestamp; the store is the module-level `Map`. `Date.now()` is
passed explicitly as `now : Nat`. -/

structure CacheEntry where
  value : String
  expiresAt : Nat
deriving Repr, DecidableEq

/-- `cacheGet` (cache.ts lines 8-16): a missing key yields `none`; an entry
with `now > expiresAt` is evicted and yields `none`; otherwise the stored
value is returned. Returns the result together with the updated store. -/
def cacheGet (store : List (String × CacheEntry)) (now : Nat) (key : String) :
    Option String × List (String × CacheEntry) :=
  match mapGet store key with
  | none => (none, store)
  | some entry =>
    if now > entry.expiresAt then (none, mapDelete store key)
    else (some entry.value, store)

/-- `cacheSet` (cache.ts lines 18-20): unconditional overwrite with expiry
`now + ttlMs`. -/
def cacheSet (store : List (String × CacheEntry)) (now : Nat) (key : String)
    (value : String) (ttlMs : Nat) : List (String × CacheEntry) :=
  mapSet store key ⟨value, now + ttlMs⟩

/-- `cacheGetOrSet` (cache.ts lines 22-32). The producer `fn` is modelled by
the value it would return; the last component counts how many times the
producer ran (0 on a hit, 1 on a miss). -/
def cacheGetOrSet (store : List (String × CacheEntry)) (now : Nat) (key : String)
    (producerValue : String) (ttlMs : Nat) :
    String × List (String × CacheEntry) × Nat :=
  match cacheGet store now key with
  | (some cached, store1) => (cached, store1, 0)
  | (none, store1) =>
    (producerValue, cacheSet store1 now key producerValue ttlMs, 1)

/-! ## Cache keys (cache.ts lines 34-40)

Parameters are an insertion-ordered list of name/value pairs; `none` models
a JS `undefined` value and `String(v)` is the identity on the string values
the callers pass. `localeCompare` on the ASCII parameter names used by the
callers is modelled by the code-point order on strings. -/

/-- Boolean code-point comparison of two char lists (lexicographic):
an executable rendering of the string order that `localeCompare` induces on
the ASCII parameter names the callers use. -/
def charListLe : List Char → List Char → Bool
  | [], _ => true
  | _ :: _, [] => false
  | c :: cs, d :: ds => if c = d then charListLe cs ds else decide (c < d)

theorem charListLe_total : ∀ a b : List Char,
    charListLe a b = true ∨ charListLe b a = true := by
  intro a
  induction a with
  | nil => intro b; exact Or.inl rfl
  | cons c cs ih =>
    intro b
    cases b with
    | nil => exact Or.inr rfl
    | cons d ds =>
      by_cases h : c = d
      · subst h
        simpa [charListLe] using ih ds
      · rcases lt_trichotomy c d with hlt | heq | hgt
        · left; simp [charListLe, h, hlt]
        · exact absurd heq h
        · right
          simp [charListLe, Ne.symm h]
          exact hgt

theorem charListLe_trans : ∀ a b c : List Char, charListLe a b = true →
    charListLe b c = true → charListLe a c = true := by
  intro a
  induction a with
  | nil => intro b c _ _; rfl
  | cons x xs ih =>
    intro b c hab hbc
    cases b with
    | nil => simp [charListLe] at hab
    | cons y ys =>
      cases c with
      | nil => simp [charListLe] at hbc
      | cons z zs =>
        by_cases hxy : x = y <;> by_cases hyz : y = z
        · subst hxy; subst hyz
          simp only [charListLe, if_pos rfl] at hab hbc ⊢
          exact ih ys zs hab hbc
        · subst hxy
          simp only [charListLe, if_neg hyz, decide_eq_true_eq] at hbc
          have hxz : x ≠ z := fun he => hyz he
          simp only [charListLe, if_neg hxz, decide_eq_true_eq]
          exact hbc
        · simp only [charListLe, if_neg hxy, decide_eq_true_eq] at hab
          have hxz : x < z := hyz ▸ hab
          have hne : x ≠ z := fun he => absurd (he ▸ hxz) (lt_irrefl _)
          simp only [charListLe, if_neg hne, decide_eq_true_eq]
          exact hxz
        · simp only [charListLe, if_neg hxy, decide_eq_true_eq] at hab
          simp only [charListLe, if_neg hyz, decide_eq_true_eq] at hbc
          have hxz : x < z := lt_trans hab hbc
          have hne : x ≠ z := fun he => absurd (he ▸ hxz) (lt_irrefl _)
          simp only [charListLe, if_neg hne, decide_eq_true_eq]
          exact hxz

theorem charListLe_antisymm : ∀ a b : List Char, charListLe a b = true →
    charListLe b a = true → a = b := by
  intro a
  induction a with
  | nil =>
    intro b _ hba
    cases b with
    | nil => rfl
    | cons y ys => simp [charListLe] at hba
  | cons x xs ih =>
    intro b hab hba
    cases b with
    | nil => simp [charListLe] at hab
    | cons y ys =>
      by_cases hxy : x = y
      · subst hxy
        simp only [charListLe, if_pos rfl] at hab hba
        rw [ih ys hab hba]
      · simp only [charListLe, if_neg hxy, decide_eq_true_eq] at hab
        simp only [charListLe, if_neg (Ne.symm hxy), decide_eq_true_eq] at hba
        exact absurd (lt_trans hab hba) (lt_irrefl _)

/-- Comparison used by the sort in `makeCacheKey` (cache.ts line 37). -/
def paramLe (p q : String × Option String) : Prop :=
  charListLe p.1.data q.1.data = true

instance : DecidableRel paramLe :=
  fun p q => inferInstanceAs (Decidable (charListLe p.1.data q.1.data = true))

instance : IsTotal (String × Option String) paramLe :=
  ⟨fun a b => charListLe_total a.1.data b.1.data⟩

instance : IsTrans (String × Option String) paramLe :=
  ⟨fun a b c h1 h2 => charListLe_trans a.1.data b.1.data c.1.data h1 h2⟩

/-- `makeCacheKey` (cache.ts lines 34-40): drop `undefined` values, sort the
remaining pairs by name, render each as `name=value` and join them with
commas after `prefix:`. -/
def makeCacheKey (pre : String) (params : List (String × Option String)) : String :=
  let parts :=
    (((params.filter fun p => p.2.isSome).insertionSort paramLe).map
      fun p => p.1 ++ "=" ++ p.2.getD "")
  pre ++ ":" ++ String.intercalate "," parts

theorem sorted_paramLe_perm_eq :
    ∀ {l1 l2 : List (String × Option String)}, List.Perm l1 l2 →
      l1.Sorted paramLe → l2.Sorted paramLe → (l1.map Prod.fst).Nodup → l1 = l2 := by
  intro l1
  induction l1 with
  | nil =>
    intro l2 hp _ _ _
    exact (hp.nil_eq).symm ▸ rfl
  | cons a t1 ih =>
    intro l2 hp hs1 hs2 hnd
    cases l2 with
    | nil => exact absurd hp.symm.nil_eq (by simp)
    | cons b t2 =>
      have hnd2 : a.1 ∉ t1.map Prod.fst ∧ (t1.map Prod.fst).Nodup := by
        have : (a.1 :: t1.map Prod.fst).Nodup := by simpa using hnd
        exact List.nodup_cons.mp this
      have hab : a = b := by
        have hbmem : b ∈ a :: t1 := hp.mem_iff.mpr (by simp)
        rcases List.mem_cons.mp hbmem with h | hbt1
        · exact h.symm
        · -- b sits in the tail of the sorted l1, so a.1 ≤ b.1;
          -- a is in l2 = b :: t2, so b.1 ≤ a.1; keys are Nodup, contradiction
          have hamem : a ∈ b :: t2 := hp.mem_iff.mp (by simp)
          have hkeys : a.1 = b.1 := by
            have h1 : paramLe a b := (List.sorted_cons.mp hs1).1 b hbt1
            rcases List.mem_cons.mp hamem with h | hat2
            · exact h ▸ rfl
            · have h2 : paramLe b a := (List.sorted_cons.mp hs2).1 a hat2
              have hdata : a.1.data = b.1.data := charListLe_antisymm _ _ h1 h2
              exact congrArg String.mk hdata
          have : a.1 ∈ t1.map Prod.fst := by
            rw [hkeys]
            exact List.mem_map.mpr ⟨b, hbt1, rfl⟩
          exact absurd this hnd2.1
      subst hab
      have htail : List.Perm t1 t2 := hp.cons_inv
      have := ih htail (List.sorted_cons.mp hs1).2 (List.sorted_cons.mp hs2).2 hnd2.2
      rw [this]

/-- C5 helper: permuting the parameter list permutes the defined-value
sublist, and sorting two permuted Nodup-keyed lists gives the same list. -/
theorem makeCacheKey_perm (pre : String) (l1 l2 : List (String × Option String))
    (hp : List.Perm l1 l2) (hnd : (l1.map Prod.fst).Nodup) :
    makeCacheKey pre l1 = makeCacheKey pre l2 := by
  have hpf : List.Perm (l1.filter fun p => p.2.isSome) (l2.filter fun p => p.2.isSome) :=
    hp.filter _
  have hs1 := List.sorted_insertionSort paramLe (l1.filter fun p => p.2.isSome)
  have hs2 := List.sorted_insertionSort paramLe (l2.filter fun p => p.2.isSome)
  have hperm : List.Perm ((l1.filter fun p => p.2.isSome).insertionSort paramLe)
      ((l2.filter fun p => p.2.isSome).insertionSort paramLe) :=
    (List.perm_insertionSort paramLe _).trans
      (hpf.trans (List.perm_insertionSort paramLe _).symm)
  have hndf : ((l1.filter fun p => p.2.isSome).map Prod.fst).Nodup :=
    hnd.sublist ((List.filter_sublist l1).map Prod.fst)
  have hnds : (((l1.filter fun p => p.2.isSome).insertionSort paramLe).map Prod.fst).Nodup :=
    (((List.perm_insertionSort paramLe _).map Prod.fst).nodup_iff).mpr hndf
  have := sorted_paramLe_perm_eq hperm hs1 hs2 hnds
  unfold makeCacheKey
  rw [this]

/-- C4: if the cache holds an unexpired entry for the key, `cacheGetOrSet`
returns that entry's value, leaves the store unchanged and runs the producer
zero times; otherwise (no entry, or an expired one) the producer runs
exactly once, its value is returned, and it is stored under the key with
expiry `now + ttlMs`. -/
theorem cacheGetOrSet_spec (store : List (String × CacheEntry)) (now : Nat)
    (key producerValue : String) (ttlMs : Nat) :
    (∀ entry, mapGet store key = some entry → now ≤ entry.expiresAt →
        cacheGetOrSet store now key producerValue ttlMs = (entry.value, store, 0)) ∧
    ((mapGet store key = none ∨
        ∃ entry, mapGet store key = some entry ∧ entry.expiresAt < now) →
      (cacheGetOrSet store now key producerValue ttlMs).1 = producerValue ∧
      (cacheGetOrSet store now key producerValue ttlMs).2.2 = 1 ∧
      mapGet (cacheGetOrSet store now key producerValue ttlMs).2.1 key =
        some ⟨producerValue, now + ttlMs⟩) := by
  constructor
  · intro entry hget hle
    have hnot : ¬ now > entry.expiresAt := Nat.not_lt.mpr hle
    simp [cacheGetOrSet, cacheGet, hget, hnot]
  · rintro (hnone | ⟨entry, hget, hexp⟩)
    · simp [cacheGetOrSet, cacheGet, hnone, cacheSet, mapGet_mapSet_self]
    · have hgt : now > entry.expiresAt := hexp
      simp [cacheGetOrSet, cacheGet, hget, hgt, cacheSet, mapGet_mapSet_self]

theorem cacheGetOrSet_spec_witness :
    (cacheGetOrSet [("k", (⟨"v", 10⟩ : CacheEntry))] 5 "k" "p" 100 =
      ("v", [("k", ⟨"v", 10⟩)], 0)) ∧
    ((cacheGetOrSet [("k", (⟨"v", 10⟩ : CacheEntry))] 11 "k" "p" 100).1 = "p" ∧
      (cacheGetOrSet [("k", (⟨"v", 10⟩ : CacheEntry))] 11 "k" "p" 100).2.2 = 1 ∧
      mapGet (cacheGetOrSet [("k", (⟨"v", 10⟩ : CacheEntry))] 11 "k" "p" 100).2.1 "k" =
        some ⟨"p", 111⟩) :=
  ⟨(cacheGetOrSet_spec [("k", ⟨"v", 10⟩)] 5 "k" "p" 100).1 ⟨"v", 10⟩ (by decide)
      (by decide),
   (cacheGetOrSet_spec [("k", ⟨"v", 10⟩)] 11 "k" "p" 100).2
      (Or.inr ⟨⟨"v", 10⟩, by decide, by decide⟩)⟩

/-- C5: `makeCacheKey` is invariant under permutation of the parameter
insertion order (for parameter maps, whose names are distinct), and
parameters with undefined values are omitted: dropping them from the list
leaves the key unchanged. -/
theorem makeCacheKey_deterministic :
    (∀ (pre : String) (l1 l2 : List (String × Option String)),
        List.Perm l1 l2 → (l1.map Prod.fst).Nodup →
        makeCacheKey pre l1 = makeCacheKey pre l2) ∧
    (∀ (pre : String) (l : List (String × Option String)),
        makeCacheKey pre l = makeCacheKey pre (l.filter fun p => p.2.isSome)) := by
  constructor
  · exact fun pre l1 l2 hp hnd => makeCacheKey_perm pre l1 l2 hp hnd
  · intro pre l
    unfold makeCacheKey
    rw [List.filter_filter]
    simp

theorem makeCacheKey_deterministic_witness :
    makeCacheKey "search" [("query", some "swift"), ("type", some "doc")] =
      makeCacheKey "search" [("type", some "doc"), ("query", some "swift")] ∧
    makeCacheKey "test" [("a", some "1"), ("b", none), ("c", some "3")] =
      makeCacheKey "test"
        ([("a", some "1"), ("b", none), ("c", some "3")].filter fun p => p.2.isSome) :=
  ⟨makeCacheKey_deterministic.1 "search" _ _ (List.Perm.swap _ _ _) (by decide),
   makeCacheKey_deterministic.2 "test" _⟩

/-- C10: `makeCacheKey` is not injective on fully-defined parameter maps:
the maps a usto "1,b=2" and a usto "1", b usto "2" disagree on "b" yet produce
the identical key, because comma and equals are unescaped separators. -/
theorem makeCacheKey_collision :
    makeCacheKey "search" [("a", some "1,b=2")] = "search:a=1,b=2" ∧
    makeCacheKey "search" [("a", some "1"), ("b", some "2")] = "search:a=1,b=2" ∧
    List.lookup "b" [("a", (some "1,b=2" : Option String))] = none ∧
    List.lookup "b" [("a", (some "1" : Option String)), ("b", some "2")] =
      some (some "2") ∧
    ([("a", (some "1,b=2" : Option String))].all fun p => p.2.isSome) = true ∧
    ([("a", (some "1" : Option String)), ("b", some "2")].all fun p => p.2.isSome) =
      true := by
  refine ⟨by decide, by decide, by decide, by decide, by decide, by decide⟩

/-! ## Resilient fetcher (src/lib/http.ts)

One network attempt is modelled by a `FetchOutcome`: either a response with
a status code and body, or a transport-level failure carrying the thrown
error message. `outcomes n` is the outcome the network would produce for
attempt number `n` (0-based). The model returns the overall result together
with the number of attempts that were performed; the backoff delays have no
observable effect on the result and are not modelled. -/

inductive FetchOutcome where
  | resp (status : Nat) (body : String)
  | failed (msg : String)

/-- `response.ok`: status in the 2xx range. -/
def statusOk (s : Nat) : Bool := decide (200 ≤ s) && decide (s ≤ 299)

/-- The error message thrown by one attempt of `fetchWithRetry`
(http.ts lines 28-45); `none` means the attempt succeeded. A non-Error
thrown value is stringified by the source, so transport failures are
modelled directly by their message. -/
def attemptError (url : String) : FetchOutcome → Option String
  | .resp s _ =>
    if s = 404 then some ("Not found (404): " ++ url)
    else if 500 ≤ s then some ("Server error (" ++ toString s ++ "): " ++ url)
    else if !statusOk s then some ("HTTP " ++ toString s ++ ": " ++ url)
    else none
  | .failed msg => some msg

/-- Body of a successful outcome. -/
def attemptBody : FetchOutcome → String
  | .resp _ b => b
  | .failed _ => ""

/-- Boolean prefix test over char lists. -/
def isPrefixOfChars : List Char → List Char → Bool
  | [], _ => true
  | _ :: _, [] => false
  | p :: ps, c :: cs => p == c && isPrefixOfChars ps cs

/-- Boolean contiguous-substring test over char lists. -/
def containsChars (pat : List Char) : List Char → Bool
  | [] => isPrefixOfChars pat []
  | c :: cs => isPrefixOfChars pat (c :: cs) || containsChars pat cs

/-- JS `String.prototype.includes`. -/
def containsSub (s sub : String) : Bool := containsChars sub.data s.data

/-- The `lastError.message.includes('404')` test (http.ts line 50). -/
def contains404 (msg : String) : Bool := containsSub msg "404"

/-- The retry loop of `fetchWithRetry` (http.ts lines 26-57): `attempt` is
the 0-based attempt counter, `remaining` the attempts still allowed, and
`lastError` the error observed by the previous attempt. An error whose
message contains "404" is rethrown at once; exhausting the attempts throws
the last observed error (http.ts line 59). Returns the result and the total
number of attempts performed. -/
def retryLoop (url : String) (outcomes : Nat → FetchOutcome) :
    Nat → Nat → Option String → Except String String × Nat
  | attempt, 0, lastError =>
    (Except.error (lastError.getD ("Failed to fetch: " ++ url)), attempt)
  | attempt, remaining + 1, _ =>
    match attemptError url (outcomes attempt) with
    | none => (Except.ok (attemptBody (outcomes attempt)), attempt + 1)
    | some msg =>
      if contains404 msg then (Except.error msg, attempt + 1)
      else retryLoop url outcomes (attempt + 1) remaining (some msg)

/-- `fetchWithRetry` (http.ts line 23), with its default of 3 attempts. -/
def fetchWithRetry (url : String) (outcomes : Nat → FetchOutcome)
    (maxRetries : Nat := 3) : Except String String × Nat :=
  retryLoop url outcomes 0 maxRetries none

theorem isPrefixOfChars_append (pat a b : List Char)
    (h : isPrefixOfChars pat a = true) : isPrefixOfChars pat (a ++ b) = true := by
  induction pat generalizing a with
  | nil => rfl
  | cons p ps ih =>
    cases a with
    | nil => simp [isPrefixOfChars] at h
    | cons c cs =>
      simp only [isPrefixOfChars, Bool.and_eq_true] at h
      simp only [List.cons_append, isPrefixOfChars, Bool.and_eq_true]
      exact ⟨h.1, ih cs h.2⟩

theorem containsChars_append_left (pat a b : List Char)
    (h : containsChars pat a = true) : containsChars pat (a ++ b) = true := by
  induction a with
  | nil =>
    cases pat with
    | nil =>
      cases b with
      | nil => rfl
      | cons x xs => simp [containsChars, isPrefixOfChars]
    | cons p ps => simp [containsChars, isPrefixOfChars] at h
  | cons c cs ih =>
    simp only [containsChars, Bool.or_eq_true] at h
    simp only [List.cons_append, containsChars, Bool.or_eq_true]
    rcases h with h | h
    · exact Or.inl (isPrefixOfChars_append pat (c :: cs) b h)
    · exact Or.inr (ih h)

theorem contains404_of_append_left (pre : String) (url : String)
    (h : contains404 pre = true) : contains404 (pre ++ url) = true := by
  unfold contains404 containsSub at h ⊢
  rw [String.data_append]
  exact containsChars_append_left _ _ _ h

/-- One step of the retry loop while attempts remain (an unfolding of the
definition, used to evaluate the loop attempt by attempt). -/
theorem retryLoop_succ (url : String) (outcomes : Nat → FetchOutcome)
    (attempt remaining : Nat) (lastError : Option String) :
    retryLoop url outcomes attempt (remaining + 1) lastError =
      match attemptError url (outcomes attempt) with
      | none => (Except.ok (attemptBody (outcomes attempt)), attempt + 1)
      | some msg =>
        if contains404 msg then (Except.error msg, attempt + 1)
        else retryLoop url outcomes (attempt + 1) remaining (some msg) := by
  rfl

theorem isPrefixOfChars_refl : ∀ l : List Char, isPrefixOfChars l l = true := by
  intro l
  induction l with
  | nil => rfl
  | cons x xs ih => simp [isPrefixOfChars, ih]

theorem containsChars_of_isPrefix (pat l : List Char)
    (h : isPrefixOfChars pat l = true) : containsChars pat l = true := by
  cases l with
  | nil => exact h
  | cons c cs => simp [containsChars, h]

theorem containsChars_append_right (pat a b : List Char)
    (h : containsChars pat b = true) : containsChars pat (a ++ b) = true := by
  induction a with
  | nil => exact h
  | cons c cs ih =>
    simp only [List.cons_append, containsChars, Bool.or_eq_true]
    exact Or.inr ih

theorem containsSub_of_mid (a e b : String) :
    containsSub (a ++ e ++ b) e = true := by
  unfold containsSub
  rw [String.data_append, String.data_append, List.append_assoc]
  exact containsChars_append_right _ _ _
    (containsChars_of_isPrefix _ _
      (isPrefixOfChars_append _ _ _ (isPrefixOfChars_refl e.data)))

/-- C3 counterexample, refuting two clauses of the claim. First, a URL
whose text contains "404" defeats the retry classification: a 500 response
for it produces the message "Server error (500): https://example.com/404",
which contains "404", so the fetch fails after a single attempt instead of
being retried 3 times. Second, the error surfaced after exhausting all 3
attempts is not always tagged with the failing URL: three transport-level
failures surface the last thrown message verbatim ("connection reset"
here), and that message does not contain the URL. -/
theorem fetchWithRetry_url404_counterexample :
    (fetchWithRetry "https://example.com/404" (fun _ => .resp 500 "")).2 = 1 ∧
    (fetchWithRetry "https://example.com/404" (fun _ => .resp 500 "")).1 =
      Except.error "Server error (500): https://example.com/404" ∧
    fetchWithRetry "https://api.example/data"
        (fun _ => .failed "connection reset") =
      (Except.error "connection reset", 3) ∧
    containsSub "connection reset" "https://api.example/data" = false := by
  refine ⟨rfl, rfl, rfl, by decide⟩

/-- C3 (amended): a 404-status response fails immediately after exactly one
attempt; any other failing first and second attempt whose error messages do
not contain "404" are retried, so a 2xx third attempt succeeds with exactly
3 attempts performed; when all 3 attempts fail without a "404" message,
the last observed error message is surfaced verbatim after exactly 3
attempts; and every error message derived from a received status code
embeds the failing URL (so status-failure errors are tagged with it — only
transport-level errors, whose thrown message is surfaced unchanged, can
lack the URL, as the counterexample shows). -/
theorem fetchWithRetry_spec :
    (∀ (url : String) (outcomes : Nat → FetchOutcome) (b : String),
        outcomes 0 = .resp 404 b →
        fetchWithRetry url outcomes =
          (Except.error ("Not found (404): " ++ url), 1)) ∧
    (∀ (url : String) (outcomes : Nat → FetchOutcome) (m0 m1 b : String)
        (s : Nat),
        attemptError url (outcomes 0) = some m0 → contains404 m0 = false →
        attemptError url (outcomes 1) = some m1 → contains404 m1 = false →
        outcomes 2 = .resp s b → statusOk s = true →
        fetchWithRetry url outcomes = (Except.ok b, 3)) ∧
    (∀ (url : String) (outcomes : Nat → FetchOutcome) (m0 m1 m2 : String),
        attemptError url (outcomes 0) = some m0 → contains404 m0 = false →
        attemptError url (outcomes 1) = some m1 → contains404 m1 = false →
        attemptError url (outcomes 2) = some m2 → contains404 m2 = false →
        fetchWithRetry url outcomes = (Except.error m2, 3)) ∧
    (∀ (url : String) (s : Nat) (body msg : String),
        attemptError url (.resp s body) = some msg →
        containsSub msg url = true) := by
  refine ⟨?_, ?_, ?_, ?_⟩
  · intro url outcomes b h0
    have hmsg : contains404 ("Not found (404): " ++ url) = true :=
      contains404_of_append_left "Not found (404): " url (by decide)
    unfold fetchWithRetry
    rw [show (3 : Nat) = 2 + 1 from rfl, retryLoop_succ, h0]
    simp [attemptError, hmsg]
  · intro url outcomes m0 m1 b s h0 h0f h1 h1f h2 hok
    have hbounds : 200 ≤ s ∧ s ≤ 299 := by
      simpa [statusOk] using hok
    have h404 : s ≠ 404 := by omega
    have hsucc : attemptError url (outcomes 2) = none := by
      rw [h2]
      have h500 : ¬ 500 ≤ s := by omega
      simp [attemptError, h404, h500, hok]
    unfold fetchWithRetry
    rw [show (3 : Nat) = 2 + 1 from rfl, retryLoop_succ, h0]
    simp only [h0f, Bool.false_eq_true, if_false]
    rw [show (2 : Nat) = 1 + 1 from rfl, retryLoop_succ, h1]
    simp only [h1f, Bool.false_eq_true, if_false]
    rw [show (1 : Nat) = 0 + 1 from rfl, retryLoop_succ, hsucc, h2]
    rfl
  · intro url outcomes m0 m1 m2 h0 h0f h1 h1f h2 h2f
    unfold fetchWithRetry
    rw [show (3 : Nat) = 2 + 1 from rfl, retryLoop_succ, h0]
    simp only [h0f, Bool.false_eq_true, if_false]
    rw [show (2 : Nat) = 1 + 1 from rfl, retryLoop_succ, h1]
    simp only [h1f, Bool.false_eq_true, if_false]
    rw [show (1 : Nat) = 0 + 1 from rfl, retryLoop_succ, h2]
    simp only [h2f, Bool.false_eq_true, if_false]
    rfl
  · intro url s body msg h
    simp only [attemptError] at h
    split_ifs at h with h404 h500 hok
    · injection h with he
      rw [← he]
      simpa using containsSub_of_mid "Not found (404): " url ""
    · injection h with he
      rw [← he]
      simpa using
        containsSub_of_mid ("Server error (" ++ toString s ++ "): ") url ""
    · injection h with he
      rw [← he]
      simpa using containsSub_of_mid ("HTTP " ++ toString s ++ ": ") url ""

theorem fetchWithRetry_spec_witness :
    fetchWithRetry "https://api.test/a" (fun _ => .resp 404 "gone") =
      (Except.error ("Not found (404): " ++ "https://api.test/a"), 1) ∧
    fetchWithRetry "https://api.test/b"
        (fun n => match n with
          | 0 => .resp 500 ""
          | 1 => .failed "connection reset"
          | _ => .resp 200 "payload") = (Except.ok "payload", 3) ∧
    fetchWithRetry "https://api.test/c" (fun _ => .resp 503 "") =
      (Except.error "Server error (503): https://api.test/c", 3) ∧
    containsSub "Server error (503): https://api.test/c" "https://api.test/c" =
      true :=
  ⟨fetchWithRetry_spec.1 "https://api.test/a" _ "gone" rfl,
   fetchWithRetry_spec.2.1 "https://api.test/b" _
      "Server error (500): https://api.test/b" "connection reset" "payload" 200
      rfl (by decide) rfl (by decide) rfl (by decide),
   fetchWithRetry_spec.2.2.1 "https://api.test/c" _
      "Server error (503): https://api.test/c" "Server error (503): https://api.test/c"
      "Server error (503): https://api.test/c"
      rfl (by decide) rfl (by decide) rfl (by decide),
   fetchWithRetry_spec.2.2.2 "https://api.test/c" 503 ""
      "Server error (503): https://api.test/c" rfl⟩

/-! ## Error boundaries of the six feature-module entry functions (C2)

Each entry function wraps its whole body in a try/catch and returns a
string in both branches. The body (fetch, JSON/HTML parsing and Markdown
assembly — all of which is pure string work once the fetched data is in
hand) is abstracted by its outcome: `Except.ok` carries the Markdown the
body would produce, `Except.error` the message of whatever the body threw
(the sources stringify non-Error throws, so a message always exists). Each
function below is the catch boundary of the corresponding source function;
totality of the success branch is by construction in the sources (string
concatenation only) and by typing here. -/

/-- Catch boundary of `searchAppleDocs` (search.ts lines 159-162). -/
def searchAppleDocsResult (bodyOutcome : Except String String) : String :=
  match bodyOutcome with
  | .ok content => content
  | .error msg => "Error searching Apple docs: " ++ msg

/-- Catch boundary of `getAppleDocContent` (doc.ts lines 93-96). -/
def getAppleDocContentResult (url : String)
    (bodyOutcome : Except String String) : String :=
  match bodyOutcome with
  | .ok content => content
  | .error msg =>
    "Error: Failed to get Apple doc content: " ++ msg ++
      "\n\nPlease try accessing the documentation directly at: " ++ url

/-- Catch boundary of `listTechnologies` (technologies.ts lines 69-72). -/
def listTechnologiesResult (bodyOutcome : Except String String) : String :=
  match bodyOutcome with
  | .ok content => content
  | .error msg => "Error: Failed to list technologies: " ++ msg

/-- Catch boundary of `searchFrameworkSymbols` (symbols.ts lines 311-314). -/
def searchFrameworkSymbolsResult (bodyOutcome : Except String String) : String :=
  match bodyOutcome with
  | .ok content => content
  | .error msg => "Error searching symbols: " ++ msg

/-- Catch boundary of `getDocumentationUpdates` (updates.ts lines 195-198). -/
def getDocumentationUpdatesResult (bodyOutcome : Except String String) : String :=
  match bodyOutcome with
  | .ok content => content
  | .error msg => "Error: Failed to fetch documentation updates: " ++ msg

/-- Catch boundary of `getSampleCode` (samples.ts lines 230-233). -/
def getSampleCodeResult (bodyOutcome : Except String String) : String :=
  match bodyOutcome with
  | .ok content => content
  | .error msg => "Error fetching sample code: " ++ msg

/-- C2: every feature-module entry function is total over every body
outcome (it returns a string in both branches by construction), and when
the underlying fetch/parse throws, each returns its module's human-readable
error string, which contains the original error text; on success each
returns the body's Markdown unchanged. -/
theorem featureModules_error_boundary :
    ∀ (e content url : String),
      searchAppleDocsResult (Except.ok content) = content ∧
      searchAppleDocsResult (Except.error e) =
        "Error searching Apple docs: " ++ e ∧
      containsSub (searchAppleDocsResult (Except.error e)) e = true ∧
      getAppleDocContentResult url (Except.ok content) = content ∧
      getAppleDocContentResult url (Except.error e) =
        "Error: Failed to get Apple doc content: " ++ e ++
          "\n\nPlease try accessing the documentation directly at: " ++ url ∧
      containsSub (getAppleDocContentResult url (Except.error e)) e = true ∧
      listTechnologiesResult (Except.ok content) = content ∧
      listTechnologiesResult (Except.error e) =
        "Error: Failed to list technologies: " ++ e ∧
      containsSub (listTechnologiesResult (Except.error e)) e = true ∧
      searchFrameworkSymbolsResult (Except.ok content) = content ∧
      searchFrameworkSymbolsResult (Except.error e) =
        "Error searching symbols: " ++ e ∧
      containsSub (searchFrameworkSymbolsResult (Except.error e)) e = true ∧
      getDocumentationUpdatesResult (Except.ok content) = content ∧
      getDocumentationUpdatesResult (Except.error e) =
        "Error: Failed to fetch documentation updates: " ++ e ∧
      containsSub (getDocumentationUpdatesResult (Except.error e)) e = true ∧
      getSampleCodeResult (Except.ok content) = content ∧
      getSampleCodeResult (Except.error e) =
        "Error fetching sample code: " ++ e ∧
      containsSub (getSampleCodeResult (Except.error e)) e = true := by
  intro e content url
  refine ⟨rfl, rfl, ?_, rfl, rfl, ?_, rfl, rfl, ?_, rfl, rfl, ?_, rfl, rfl, ?_,
    rfl, rfl, ?_⟩
  · simpa using containsSub_of_mid "Error searching Apple docs: " e ""
  · show containsSub ((("Error: Failed to get Apple doc content: " ++ e) ++
      "\n\nPlease try accessing the documentation directly at: ") ++ url) e = true
    rw [String.append_assoc ("Error: Failed to get Apple doc content: " ++ e)]
    exact containsSub_of_mid _ e _
  · simpa using containsSub_of_mid "Error: Failed to list technologies: " e ""
  · simpa using containsSub_of_mid "Error searching symbols: " e ""
  · simpa using
      containsSub_of_mid "Error: Failed to fetch documentation updates: " e ""
  · simpa using containsSub_of_mid "Error fetching sample code: " e ""

/-! ## Wildcard name matching (symbols.ts lines 150-156)

`matchesPattern` splits the pattern on `*`, escapes every other character
to a regex literal, joins the pieces with `.*` and tests the title against
the resulting regex, anchored at both ends and case-insensitive. The
embedding interprets that regex directly over char lists: a literal
character matches exactly itself (escaping makes every non-star character
literal), `*` matches a run of characters containing no line terminator
(the RegExp is constructed without the `s` flag, so the `.` of the `.*`
each star becomes excludes LF, CR, U+2028 and U+2029), the whole title
must be covered (both anchors), and the `i` flag is modelled by
lowercasing pattern and title. `Char.toLower` folds ASCII letters only,
while the `i` flag also folds non-ASCII case pairs (for example É/é), so
the case statements proved below are made for ASCII inputs, where the two
notions coincide. -/

/-- Case folding of a string for the `i` flag, at ASCII granularity:
`Char.toLower` folds A-Z only, whereas the regex `i` flag also folds
non-ASCII case pairs such as É/é, so statements about case are restricted
to ASCII strings. -/
def lowerData (s : String) : List Char := s.data.map Char.toLower

/-- The line terminators of ECMA-262, which `.` in a regex without the
`s` flag does not match: LF, CR, LINE SEPARATOR, PARAGRAPH SEPARATOR. -/
def isLineTerminator (c : Char) : Bool :=
  c = '\n' || c = '\r' || c = '\u2028' || c = '\u2029'

/-- All splits of a list into a prefix and a suffix, shortest prefix
first. -/
def splits : List Char → List (List Char × List Char)
  | [] => [([], [])]
  | c :: cs => ([], c :: cs) :: (splits cs).map fun pr => (c :: pr.1, pr.2)

/-- Anchored glob matching: pattern over the input. `*` consumes any run
of non-line-terminator characters (it becomes `.*` in a regex built
without the `s` flag); every other pattern character is a literal. -/
def globMatch : List Char → List Char → Bool
  | [], cs => cs.isEmpty
  | p :: ps, cs =>
    if p = '*' then
      (splits cs).any fun pr =>
        (pr.1.all fun c => !isLineTerminator c) && globMatch ps pr.2
    else
      match cs with
      | [] => false
      | c :: cs2 => p == c && globMatch ps cs2

theorem mem_splits : ∀ (cs w s2 : List Char),
    ((w, s2) ∈ splits cs ↔ w ++ s2 = cs) := by
  intro cs
  induction cs with
  | nil =>
    intro w s2
    constructor
    · intro h
      have h' := List.mem_singleton.mp h
      rw [Prod.mk.injEq] at h'
      rw [h'.1, h'.2]
      rfl
    · intro h
      rcases List.append_eq_nil.mp h with ⟨hw, hs⟩
      rw [hw, hs]
      exact List.mem_singleton.mpr rfl
  | cons c cs ih =>
    intro w s2
    constructor
    · intro h
      rcases List.mem_cons.mp h with h | h
      · rw [Prod.mk.injEq] at h
        rw [h.1, h.2]
        rfl
      · rcases List.mem_map.mp h with ⟨pr, hpr, heq⟩
        rw [Prod.mk.injEq] at heq
        have hcs : pr.1 ++ pr.2 = cs := (ih pr.1 pr.2).mp hpr
        rw [← heq.1, ← heq.2, List.cons_append, hcs]
    · intro h
      cases w with
      | nil =>
        refine List.mem_cons.mpr (Or.inl ?_)
        rw [Prod.mk.injEq]
        exact ⟨rfl, by simpa using h⟩
      | cons x xs =>
        refine List.mem_cons.mpr (Or.inr ?_)
        rw [List.cons_append, List.cons.injEq] at h
        refine List.mem_map.mpr ⟨(xs, s2), (ih xs s2).mpr h.2, ?_⟩
        rw [Prod.mk.injEq]
        exact ⟨by rw [h.1], rfl⟩

/-- `matchesPattern(name, pattern)` (symbols.ts lines 150-156). -/
def matchesPattern (name pattern : String) : Bool :=
  globMatch (lowerData pattern) (lowerData name)

theorem globMatch_star (ps cs : List Char) :
    globMatch ('*' :: ps) cs = true ↔
      ∃ w s2, cs = w ++ s2 ∧ (∀ c ∈ w, isLineTerminator c = false) ∧
        globMatch ps s2 = true := by
  show (if '*' = '*' then
      (splits cs).any fun pr =>
        (pr.1.all fun c => !isLineTerminator c) && globMatch ps pr.2
    else match cs with
      | [] => false
      | c :: cs2 => '*' == c && globMatch ps cs2) = true ↔ _
  rw [if_pos rfl, List.any_eq_true]
  constructor
  · rintro ⟨pr, hmem, hm⟩
    rw [Bool.and_eq_true] at hm
    refine ⟨pr.1, pr.2, ((mem_splits cs pr.1 pr.2).mp hmem).symm, ?_, hm.2⟩
    intro c hc
    simpa using List.all_eq_true.mp hm.1 c hc
  · rintro ⟨w, s2, rfl, hw, hm⟩
    refine ⟨(w, s2), (mem_splits (w ++ s2) w s2).mpr rfl, ?_⟩
    rw [Bool.and_eq_true]
    exact ⟨List.all_eq_true.mpr fun c hc => by simp [hw c hc], hm⟩

theorem globMatch_noStar (ps : List Char) (h : '*' ∉ ps) :
    ∀ cs : List Char, (globMatch ps cs = true ↔ ps = cs) := by
  induction ps with
  | nil =>
    intro cs
    cases cs with
    | nil => simp [globMatch]
    | cons c cs2 => simp [globMatch]
  | cons p ps ih =>
    intro cs
    have hp : p ≠ '*' := fun he => h (he ▸ List.mem_cons_self p ps)
    have hps : '*' ∉ ps := fun hm => h (List.mem_cons_of_mem p hm)
    cases cs with
    | nil =>
      show (if p = '*' then
          (splits ([] : List Char)).any fun pr =>
            (pr.1.all fun c => !isLineTerminator c) && globMatch ps pr.2
        else false) = true ↔ _
      rw [if_neg hp]
      simp
    | cons c cs2 =>
      show (if p = '*' then
          (splits (c :: cs2)).any fun pr =>
            (pr.1.all fun x => !isLineTerminator x) && globMatch ps pr.2
        else p == c && globMatch ps cs2) = true ↔ _
      rw [if_neg hp]
      simp only [Bool.and_eq_true, beq_iff_eq, List.cons.injEq]
      exact and_congr Iff.rfl (ih hps cs2)

/-- C7 (amended): in `matchesPattern`, `*` matches any run of characters
none of which is a line terminator (the match succeeds exactly when the
input splits into a line-terminator-free prefix and a suffix matching the
rest of the pattern — the regex is built without the `s` flag, so its `.*`
does not cross LF, CR, U+2028 or U+2029), a star-free pattern matches only
its own text (every other character is a literal and the match is anchored
at both ends), matching is case-insensitive via case folding (stated for
ASCII pattern and title, where ASCII lowercasing agrees with the `i`
flag), and the concrete examples of the claim hold: "*View" matches
"NavigationView" and "View" but not "Viewer", regardless of case. -/
theorem matchesPattern_spec :
    (∀ (ps cs : List Char), globMatch ('*' :: ps) cs = true ↔
        ∃ w s2, cs = w ++ s2 ∧ (∀ c ∈ w, isLineTerminator c = false) ∧
          globMatch ps s2 = true) ∧
    (∀ (pattern name : String), '*' ∉ lowerData pattern →
        (∀ c ∈ pattern.data, c.toNat < 128) →
        (∀ c ∈ name.data, c.toNat < 128) →
        (matchesPattern name pattern = true ↔ lowerData name = lowerData pattern)) ∧
    matchesPattern "NavigationView" "*View" = true ∧
    matchesPattern "View" "*View" = true ∧
    matchesPattern "Viewer" "*View" = false ∧
    matchesPattern "navigationview" "*VIEW" = true := by
  refine ⟨globMatch_star, ?_, by decide, by decide, by decide, by decide⟩
  intro pattern name hstar _ _
  unfold matchesPattern
  exact (globMatch_noStar _ hstar _).trans eq_comm

theorem matchesPattern_spec_witness : matchesPattern "View" "view" = true :=
  (matchesPattern_spec.2.1 "view" "View" (by decide) (by decide)
    (by decide)).mpr (by decide)

/-- C7 counterexample: `*` does not match across a line terminator. The
source builds the RegExp without the `s` flag, so the `.*` that `*`
becomes excludes `\n`: the pattern "A*B" rejects the title containing a
newline between A and B, although it accepts "AxB" — against the claim's
"any run of characters". -/
theorem matchesPattern_newline_counterexample :
    matchesPattern "A\nB" "A*B" = false ∧
    matchesPattern "AxB" "A*B" = true := by
  exact ⟨by decide, by decide⟩

/-! ## Framework symbol index walker (symbols.ts lines 92-100 and 158-194)

`IndexItem` is the node type of the per-framework index tree. An absent
`children` field is modelled as `[]`: the source treats a present (even
empty) array and an absent field identically in effect, since recursing
into an empty list is a no-op that returns false. The `external` flag is
read by no embedded function and is omitted. -/

inductive IndexItem where
  | mk (path : String) (title : String) (type : String) (beta : Bool)
      (deprecated : Bool) (children : List IndexItem)

def IndexItem.title : IndexItem → String
  | .mk _ t _ _ _ _ => t

def IndexItem.type : IndexItem → String
  | .mk _ _ ty _ _ _ => ty

def IndexItem.children : IndexItem → List IndexItem
  | .mk _ _ _ _ _ cs => cs

/-- The push condition of `findSymbolsRecursive` (symbols.ts lines
171-175): type filter, then optional name pattern. -/
def itemMatches (symbolType : String) (namePattern : Option String)
    (item : IndexItem) : Bool :=
  (symbolType == "all" || item.type == symbolType) &&
    (match namePattern with
     | none => true
     | some p => matchesPattern item.title p)

/-- The conditional push of symbols.ts lines 171-175: append the item when
it passes the type filter and the optional name pattern. -/
def pushIf (symbolType : String) (namePattern : Option String)
    (item : IndexItem) (symbols : List IndexItem) : List IndexItem :=
  if itemMatches symbolType namePattern item then symbols ++ [item] else symbols

/-- The contribution of one node in the exhaustive collection: the
singleton when the node matches, else nothing. -/
def pushList (symbolType : String) (namePattern : Option String)
    (item : IndexItem) : List IndexItem :=
  if itemMatches symbolType namePattern item then [item] else []

theorem pushIf_eq_append (symbolType : String) (namePattern : Option String)
    (item : IndexItem) (symbols : List IndexItem) :
    pushIf symbolType namePattern item symbols =
      symbols ++ pushList symbolType namePattern item := by
  unfold pushIf pushList
  by_cases h : itemMatches symbolType namePattern item <;> simp [h]

/-- The loop of `findSymbolsRecursive` (symbols.ts lines 168-191) in
state-passing form: `symbols` is the mutated accumulator, the boolean is
the return value of the source function. The source tests `depth > 6` on
entry to each recursive call; the embedding performs the identical test at
the call boundary, before descending into the children. -/
def fsrItems (symbolType : String) (namePattern : Option String) (limit : Nat) :
    Nat → List IndexItem → List IndexItem → List IndexItem × Bool
  | _, [], symbols => (symbols, false)
  | depth, .mk pa ti ty be de cs :: rest, symbols =>
    if limit ≤ symbols.length then (symbols, true)
    else if (pushIf symbolType namePattern (IndexItem.mk pa ti ty be de cs)
        symbols).length < limit then
      match (if 6 < depth + 1 then
              (pushIf symbolType namePattern (IndexItem.mk pa ti ty be de cs)
                symbols, false)
             else fsrItems symbolType namePattern limit (depth + 1) cs
              (pushIf symbolType namePattern (IndexItem.mk pa ti ty be de cs)
                symbols)) with
      | (s2, true) => (s2, true)
      | (s2, false) => fsrItems symbolType namePattern limit depth rest s2
    else fsrItems symbolType namePattern limit depth rest
      (pushIf symbolType namePattern (IndexItem.mk pa ti ty be de cs) symbols)

/-- `findSymbolsRecursive` (symbols.ts lines 158-194): the `depth > 6`
guard at function entry, then the loop. -/
def findSymbolsRecursive (items : List IndexItem) (symbolType : String)
    (namePattern : Option String) (limit : Nat) (symbols : List IndexItem)
    (depth : Nat := 0) : List IndexItem × Bool :=
  if 6 < depth then (symbols, false)
  else fsrItems symbolType namePattern limit depth items symbols

/-- Exhaustive depth-capped pre-order collection: every match in document
order among the nodes at depth at most 6, with no limit. -/
def collectCapped (symbolType : String) (namePattern : Option String) :
    Nat → List IndexItem → List IndexItem
  | _, [] => []
  | depth, .mk pa ti ty be de cs :: rest =>
    pushList symbolType namePattern (IndexItem.mk pa ti ty be de cs) ++
      ((if 6 < depth + 1 then []
        else collectCapped symbolType namePattern (depth + 1) cs) ++
        collectCapped symbolType namePattern depth rest)

/-- Exhaustive unbounded pre-order collection (no depth cap, no limit):
the traversal the claim text compares against. -/
def collectUnbounded (symbolType : String) (namePattern : Option String) :
    List IndexItem → List IndexItem
  | [] => []
  | .mk pa ti ty be de cs :: rest =>
    pushList symbolType namePattern (IndexItem.mk pa ti ty be de cs) ++
      (collectUnbounded symbolType namePattern cs ++
        collectUnbounded symbolType namePattern rest)

theorem take_append_take {α : Type} (a b : List α) (n : Nat) :
    (a.take n ++ b).take n = (a ++ b).take n := by
  rw [List.take_append_eq_append_take, List.take_append_eq_append_take,
    List.take_take, Nat.min_self, List.length_take]
  congr 2
  omega

theorem take_append_of_length_le {α : Type} (a b : List α) (n : Nat)
    (h : n ≤ a.length) : (a ++ b).take n = a.take n := by
  rw [List.take_append_eq_append_take]
  have h0 : n - a.length = 0 := by omega
  rw [h0]
  simp

theorem fsrItems_collect (symbolType : String) (namePattern : Option String)
    (limit : Nat) :
    ∀ (depth : Nat) (items symbols : List IndexItem), symbols.length ≤ limit →
      (fsrItems symbolType namePattern limit depth items symbols).1 =
        (symbols ++ collectCapped symbolType namePattern depth items).take limit ∧
      ((fsrItems symbolType namePattern limit depth items symbols).2 = true →
        limit ≤ (fsrItems symbolType namePattern limit depth items symbols).1.length) := by
  intro depth items symbols
  induction depth, items, symbols using fsrItems.induct symbolType namePattern limit with
  | case1 d syms =>
    intro hle
    constructor
    · simp [fsrItems, collectCapped, List.take_of_length_le hle]
    · simp [fsrItems]
  | case2 d pa ti ty be de cs rest syms hge =>
    intro hle
    have hres : fsrItems symbolType namePattern limit d
        (IndexItem.mk pa ti ty be de cs :: rest) syms = (syms, true) := by
      simp only [fsrItems, if_pos hge]
    rw [hres]
    constructor
    · rw [take_append_of_length_le _ _ _ hge, List.take_of_length_le hle]
    · exact fun _ => hge
  | case3 d pa ti ty be de cs rest syms hlen hs1lt s2 heq ihc =>
    intro hle
    have h6 : ¬ 6 < d + 1 := by
      intro h6
      rw [dif_pos h6] at heq
      simp at heq
    rw [dif_neg h6] at heq
    have ih := ihc (le_of_lt hs1lt)
    rw [heq] at ih
    dsimp only at ih
    obtain ⟨ih1, ih2⟩ := ih
    have hlim : limit ≤ s2.length := ih2 rfl
    have hres : fsrItems symbolType namePattern limit d
        (IndexItem.mk pa ti ty be de cs :: rest) syms = (s2, true) := by
      simp only [fsrItems, if_neg hlen, if_pos hs1lt, if_neg h6, dif_neg h6, heq]
    rw [hres]
    rw [pushIf_eq_append] at ih1
    have hh := congrArg List.length ih1
    rw [List.length_take] at hh
    constructor
    · show s2 = _
      rw [ih1]
      simp only [collectCapped, if_neg h6]
      rw [show syms ++
          (pushList symbolType namePattern (IndexItem.mk pa ti ty be de cs) ++
            (collectCapped symbolType namePattern (d + 1) cs ++
              collectCapped symbolType namePattern d rest)) =
          ((syms ++ pushList symbolType namePattern (IndexItem.mk pa ti ty be de cs)) ++
            collectCapped symbolType namePattern (d + 1) cs) ++
            collectCapped symbolType namePattern d rest from by
        simp [List.append_assoc]]
      rw [take_append_of_length_le
        ((syms ++ pushList symbolType namePattern (IndexItem.mk pa ti ty be de cs)) ++
          collectCapped symbolType namePattern (d + 1) cs)
        (collectCapped symbolType namePattern d rest) limit (by omega)]
    · exact fun _ => hlim
  | case4 d pa ti ty be de cs rest syms hlen hs1lt s2 heq ihc ihr =>
    intro hle
    by_cases h6 : 6 < d + 1
    · rw [dif_pos h6] at heq
      injection heq with hP hjunk
      subst hP
      have hres : fsrItems symbolType namePattern limit d
          (IndexItem.mk pa ti ty be de cs :: rest) syms =
          fsrItems symbolType namePattern limit d rest
            (pushIf symbolType namePattern (IndexItem.mk pa ti ty be de cs) syms) := by
        simp only [fsrItems, if_neg hlen, if_pos hs1lt, if_pos h6, dif_pos h6]
      rw [hres]
      obtain ⟨ihr1, ihr2⟩ := ihr (le_of_lt hs1lt)
      refine ⟨?_, ihr2⟩
      rw [ihr1, pushIf_eq_append]
      simp only [collectCapped, if_pos h6]
      simp [List.append_assoc]
    · rw [dif_neg h6] at heq
      have ih := ihc (le_of_lt hs1lt)
      rw [heq] at ih
      dsimp only at ih
      obtain ⟨ih1, ih2⟩ := ih
      have hs2le : s2.length ≤ limit := by
        rw [ih1, List.length_take]
        omega
      obtain ⟨ihr1, ihr2⟩ := ihr hs2le
      have hres : fsrItems symbolType namePattern limit d
          (IndexItem.mk pa ti ty be de cs :: rest) syms =
          fsrItems symbolType namePattern limit d rest s2 := by
        simp only [fsrItems, if_neg hlen, if_pos hs1lt, if_neg h6, dif_neg h6, heq]
      rw [hres]
      refine ⟨?_, ihr2⟩
      rw [ihr1, ih1, pushIf_eq_append, take_append_take]
      simp only [collectCapped, if_neg h6]
      simp [List.append_assoc]
  | case5 d pa ti ty be de cs rest syms hlen hges1 ihr =>
    intro hle
    have hsymlt : syms.length < limit := Nat.lt_of_not_le hlen
    have hplen : (pushList symbolType namePattern
        (IndexItem.mk pa ti ty be de cs)).length ≤ 1 := by
      unfold pushList
      split <;> simp
    have hPlen : (pushIf symbolType namePattern (IndexItem.mk pa ti ty be de cs)
        syms).length = limit := by
      rw [pushIf_eq_append, List.length_append]
      rw [pushIf_eq_append, List.length_append] at hges1
      omega
    have hres : fsrItems symbolType namePattern limit d
        (IndexItem.mk pa ti ty be de cs :: rest) syms =
        fsrItems symbolType namePattern limit d rest
          (pushIf symbolType namePattern (IndexItem.mk pa ti ty be de cs) syms) := by
      simp only [fsrItems, if_neg hlen, if_neg hges1]
    rw [hres]
    obtain ⟨ihr1, ihr2⟩ := ihr (le_of_eq hPlen)
    refine ⟨?_, ihr2⟩
    rw [ihr1]
    rw [take_append_of_length_le
      (pushIf symbolType namePattern (IndexItem.mk pa ti ty be de cs) syms)
      (collectCapped symbolType namePattern d rest) limit (le_of_eq hPlen.symm)]
    rw [List.take_of_length_le (le_of_eq hPlen)]
    simp only [collectCapped]
    rw [show syms ++
        (pushList symbolType namePattern (IndexItem.mk pa ti ty be de cs) ++
          ((if 6 < d + 1 then []
            else collectCapped symbolType namePattern (d + 1) cs) ++
            collectCapped symbolType namePattern d rest)) =
        (syms ++ pushList symbolType namePattern (IndexItem.mk pa ti ty be de cs)) ++
          ((if 6 < d + 1 then []
            else collectCapped symbolType namePattern (d + 1) cs) ++
            collectCapped symbolType namePattern d rest) from by
      simp [List.append_assoc]]
    rw [← pushIf_eq_append]
    rw [take_append_of_length_le _ _ _ (le_of_eq hPlen.symm)]
    rw [List.take_of_length_le (le_of_eq hPlen)]

/-- Counterexample tree for C6: a chain of eight nested nodes whose only
matching node sits at depth 7, one level past the walker's depth cap. -/
def deepTree : IndexItem :=
  IndexItem.mk "" "W" "collection" false false [
    IndexItem.mk "" "W" "collection" false false [
      IndexItem.mk "" "W" "collection" false false [
        IndexItem.mk "" "W" "collection" false false [
          IndexItem.mk "" "W" "collection" false false [
            IndexItem.mk "" "W" "collection" false false [
              IndexItem.mk "" "W" "collection" false false [
                IndexItem.mk "/p" "Target" "class" false false []]]]]]]]

/-- C6 counterexample: on the depth-8 chain with limit 1, the
short-circuiting walk collects nothing, while the first match in
depth-first pre-order of the unbounded exhaustive traversal is the depth-7
node — so the walk is not exhaustive-unbounded-collection followed by
truncation. -/
theorem findSymbolsRecursive_unbounded_counterexample :
    (findSymbolsRecursive [deepTree] "class" none 1 [] 0).1 = [] ∧
    (collectUnbounded "class" none [deepTree]).take 1 =
      [IndexItem.mk "/p" "Target" "class" false false []] := by
  constructor
  · simp [findSymbolsRecursive, fsrItems, pushIf, itemMatches, deepTree,
      IndexItem.type, IndexItem.title]
  · simp [collectUnbounded, pushList, itemMatches, deepTree,
      IndexItem.type, IndexItem.title]

/-- C6 (amended): the sequence collected by the short-circuiting
`findSymbolsRecursive` equals the first `limit` matches, in depth-first
pre-order document order, of the exhaustive traversal capped at the
walker's fixed depth bound of 6 — that is, short-circuiting is
observationally exhaustive-then-truncate over the depth-capped tree. -/
theorem findSymbolsRecursive_take (symbolType : String)
    (namePattern : Option String) (limit : Nat) (items : List IndexItem) :
    (findSymbolsRecursive items symbolType namePattern limit [] 0).1 =
      (collectCapped symbolType namePattern 0 items).take limit := by
  unfold findSymbolsRecursive
  rw [if_neg (by omega : ¬ (6 : Nat) < 0)]
  have h := (fsrItems_collect symbolType namePattern limit 0 items []
    (Nat.zero_le _)).1
  simpa using h

theorem fsrItems_of_le (symbolType : String) (namePattern : Option String)
    (limit : Nat) (depth : Nat) (items symbols : List IndexItem)
    (h : limit ≤ symbols.length) :
    (fsrItems symbolType namePattern limit depth items symbols).1 = symbols := by
  cases items with
  | nil => simp [fsrItems]
  | cons item rest =>
    cases item with
    | mk pa ti ty be de cs => simp only [fsrItems, if_pos h]

theorem mem_collectCapped (symbolType : String) (namePattern : Option String) :
    ∀ (depth : Nat) (items : List IndexItem) (x : IndexItem),
      x ∈ collectCapped symbolType namePattern depth items →
      itemMatches symbolType namePattern x = true := by
  intro depth items
  induction depth, items using collectCapped.induct symbolType namePattern with
  | case1 d => simp [collectCapped]
  | case2 d pa ti ty be de cs rest ihc ihr =>
    intro x hx
    simp only [collectCapped, List.mem_append] at hx
    rcases hx with hx | hx | hx
    · unfold pushList at hx
      by_cases hm : itemMatches symbolType namePattern
          (IndexItem.mk pa ti ty be de cs) = true
      · rw [if_pos hm] at hx
        simp at hx
        rw [hx]
        exact hm
      · rw [if_neg hm] at hx
        simp at hx
    · by_cases h6 : 6 < d + 1
      · rw [if_pos h6] at hx
        simp at hx
      · rw [if_neg h6] at hx
        exact ihc x hx
    · exact ihr x hx

/-! ## Sample code index (samples.ts)

`SampleNode` is the index node type (samples.ts lines 6-13); an absent
`children` field is modelled as `[]` (the source recurses into a present
array and skips an absent field — recursing into `[]` is the same no-op),
an absent `beta` as `false` (the source reads it only as `beta || false`),
and the `external` flag, which no embedded function reads, is omitted.
`path` keeps its JS string-or-undefined type as an `Option`. -/

inductive SampleNode where
  | mk (path : Option String) (title : String) (type : String) (beta : Bool)
      (children : List SampleNode)

/-- `ParsedSampleCode` (samples.ts lines 36-45). -/
structure ParsedSampleCode where
  title : String
  framework : Option String
  description : Option String
  beta : Bool
  featured : Bool
  url : String
  path : String
  depth : Nat
deriving Repr, DecidableEq

/-- JS truthiness of a string-or-undefined value: defined and nonempty. -/
def strTruthy : Option String → Bool
  | none => false
  | some s => !(s == "")

/-- JS `a || b` for a string-or-undefined `a` against a string default. -/
def jsOrS (a : Option String) (b : String) : String :=
  match a with
  | some s => if s = "" then b else s
  | none => b

/-- Modelled from the spec: `normalizeFramework` of src/lib/frameworks.ts,
whose source is not among the provided files (only its test is). Spec 4.3:
case-insensitive lookup of the trimmed name in a static table of canonical
names; unknown input falls back to uppercasing the first character; the
empty string maps to itself. Table entries as pinned by frameworks.test.ts. -/
def frameworkTable : List (String × String) :=
  [("swiftui", "SwiftUI"), ("uikit", "UIKit"),
   ("avfoundation", "AVFoundation"), ("coreml", "Core ML")]

def capitalizeFirst (s : String) : String :=
  match s.data with
  | [] => ""
  | c :: cs => String.mk (Char.toUpper c :: cs)

def normalizeFramework (name : String) : String :=
  match mapGet frameworkTable (String.mk (lowerData name.trim)) with
  | some canonical => canonical
  | none => capitalizeFirst name.trim

/-- First split of a char list at '/': the chars before the first slash and
the remainder starting with it; `none` when there is no slash. -/
def splitFirstSlash : List Char → Option (List Char × List Char)
  | [] => none
  | c :: cs =>
    if c = '/' then some ([], c :: cs)
    else
      match splitFirstSlash cs with
      | some (seg, rest) => some (c :: seg, rest)
      | none => none

/-- `extractFrameworkFromPath` (samples.ts lines 49-57): the anchored regex
matches paths of shape /documentation/SEGMENT/... with a nonempty SEGMENT
followed by a further slash; segments samplecode and documentation yield
null, others are normalized. -/
def extractFrameworkFromPath (path : String) : Option String :=
  if path.startsWith "/documentation/" then
    match splitFirstSlash (path.drop 15).data with
    | some (seg, _) =>
      if seg = [] then none
      else if String.mk seg = "samplecode" ∨ String.mk seg = "documentation" then
        none
      else some (normalizeFramework (String.mk seg))
    | none => none
  else none

/-- The record pushed for one sampleCode node (samples.ts lines 80-96):
framework from the path, else from the topic-section map, else the ambient
group framework; featured by membership of doc://…path in the featured
set. -/
def mkSampleRecord (frameworkMap : List (String × String))
    (featuredIds : List String) (currentFramework : String) (depth : Nat)
    (p title : String) (beta : Bool) : ParsedSampleCode :=
  let docUrl := "doc://com.apple.documentation" ++ p
  let fw := normalizeFramework
    (jsOrS (extractFrameworkFromPath p)
      (jsOrS (mapGet frameworkMap docUrl) currentFramework))
  { title := title
    framework := if fw = "" then none else some fw
    description := none
    beta := beta
    featured := featuredIds.contains docUrl
    url := "https://developer.apple.com" ++ p
    path := p
    depth := depth }

/-- `processSampleCodeNodes` (samples.ts lines 59-108) in state-passing
form (`sampleCodes` is the mutated output array). A groupMarker node only
changes the ambient framework for its children and is never pushed; a
sampleCode node with a truthy path is appended; any other node recurses
with the ambient framework unchanged. -/
def processSampleCodeNodes (nodes : List SampleNode)
    (sampleCodes : List ParsedSampleCode)
    (frameworkMap : List (String × String)) (featuredIds : List String)
    (currentFramework : String) (depth : Nat) : List ParsedSampleCode :=
  match nodes with
  | [] => sampleCodes
  | .mk path title ty beta children :: rest =>
    if ty == "groupMarker" then
      processSampleCodeNodes rest
        (processSampleCodeNodes children sampleCodes frameworkMap featuredIds
          (normalizeFramework title) (depth + 1))
        frameworkMap featuredIds currentFramework depth
    else if ty == "sampleCode" && strTruthy path then
      processSampleCodeNodes rest
        (sampleCodes ++ [mkSampleRecord frameworkMap featuredIds
          currentFramework depth (path.getD "") title beta])
        frameworkMap featuredIds currentFramework depth
    else
      processSampleCodeNodes rest
        (processSampleCodeNodes children sampleCodes frameworkMap featuredIds
          currentFramework (depth + 1))
        frameworkMap featuredIds currentFramework depth

/-- True when some node of the forest (at any depth) has type sampleCode. -/
def hasSampleCodeNode : List SampleNode → Bool
  | [] => false
  | .mk _ _ ty _ children :: rest =>
    ty == "sampleCode" || hasSampleCodeNode children || hasSampleCodeNode rest

/-- The duplicate merge of getSampleCode (samples.ts lines 174-180):
`code` is the later record, `existing` the stored one; spread keeps the
other fields of `existing`. -/
def mergeSample (existing code : ParsedSampleCode) : ParsedSampleCode :=
  { existing with
    framework := if strTruthy code.framework then code.framework
      else existing.framework
    featured := code.featured || existing.featured
    beta := code.beta || existing.beta
    depth := min code.depth existing.depth }

/-- One step of the dedup loop (samples.ts lines 169-182). -/
def dedupeStep (m : List (String × ParsedSampleCode))
    (code : ParsedSampleCode) : List (String × ParsedSampleCode) :=
  match mapGet m code.path with
  | none => mapSet m code.path code
  | some existing => mapSet m code.path (mergeSample existing code)

/-- The `uniqueMap` built by getSampleCode (samples.ts lines 168-183). -/
def dedupe (codes : List ParsedSampleCode) :
    List (String × ParsedSampleCode) :=
  codes.foldl dedupeStep []

/-- Merging a group of duplicates left to right, as the dedup loop does for
the records sharing one path. -/
def mergeOpt (acc : Option ParsedSampleCode) (code : ParsedSampleCode) :
    Option ParsedSampleCode :=
  match acc with
  | none => some code
  | some existing => some (mergeSample existing code)

theorem mapGet_mapSet {α : Type} (m : List (String × α)) (k : String) (v : α)
    (k2 : String) :
    mapGet (mapSet m k v) k2 = if k = k2 then some v else mapGet m k2 := by
  induction m with
  | nil => simp [mapGet, mapSet]
  | cons p rest ih =>
    obtain ⟨k3, v3⟩ := p
    by_cases h1 : k3 = k
    · subst h1
      by_cases h2 : k3 = k2
      · subst h2
        simp [mapSet, mapGet]
      · simp [mapSet, mapGet, h2]
    · by_cases h2 : k3 = k2
      · subst h2
        have : ¬ k = k3 := fun he => h1 he.symm
        simp [mapSet, mapGet, h1, this]
      · simp [mapSet, mapGet, h1, h2, ih]

theorem foldl_dedupeStep_lookup :
    ∀ (codes : List ParsedSampleCode)
      (m : List (String × ParsedSampleCode)) (p : String),
      mapGet (codes.foldl dedupeStep m) p =
        (codes.filter fun c => c.path == p).foldl mergeOpt (mapGet m p) := by
  intro codes
  induction codes with
  | nil => intro m p; rfl
  | cons c rest ih =>
    intro m p
    simp only [List.foldl_cons, List.filter_cons]
    rw [ih]
    by_cases hp : c.path = p
    · subst hp
      simp only [beq_self_eq_true, if_pos, List.foldl_cons]
      congr 1
      unfold dedupeStep
      cases hm : mapGet m c.path with
      | none => rw [mapGet_mapSet, if_pos rfl]; rfl
      | some e => rw [mapGet_mapSet, if_pos rfl]; rfl
    · have hpb : (c.path == p) = false := beq_eq_false_iff_ne.mpr hp
      rw [hpb]
      simp only [Bool.false_eq_true, if_false]
      congr 1
      unfold dedupeStep
      cases hm : mapGet m c.path with
      | none => rw [mapGet_mapSet, if_neg hp]
      | some e => rw [mapGet_mapSet, if_neg hp]

theorem strTruthy_mergeSample (e c : ParsedSampleCode) :
    strTruthy (mergeSample e c).framework =
      (strTruthy c.framework || strTruthy e.framework) := by
  unfold mergeSample
  by_cases h : strTruthy c.framework = true
  · simp [h]
  · simp only [Bool.not_eq_true] at h
    simp [h]

theorem mergeOpt_foldl_props :
    ∀ (l : List ParsedSampleCode) (e r : ParsedSampleCode),
      l.foldl mergeOpt (some e) = some r →
      r.featured = (e.featured || l.any fun c => c.featured) ∧
      r.beta = (e.beta || l.any fun c => c.beta) ∧
      strTruthy r.framework =
        (strTruthy e.framework || l.any fun c => strTruthy c.framework) ∧
      (r.depth = e.depth ∨ ∃ c ∈ l, r.depth = c.depth) ∧
      r.depth ≤ e.depth ∧ (∀ c ∈ l, r.depth ≤ c.depth) := by
  intro l
  induction l with
  | nil =>
    intro e r h
    simp only [List.foldl_nil, Option.some.injEq] at h
    subst h
    simp
  | cons c l ih =>
    intro e r h
    simp only [List.foldl_cons] at h
    have hmerge : mergeOpt (some e) c = some (mergeSample e c) := rfl
    rw [hmerge] at h
    obtain ⟨hf, hb, hfw, hd, hde, hdl⟩ := ih (mergeSample e c) r h
    have hmf : (mergeSample e c).featured = (c.featured || e.featured) := rfl
    have hmb : (mergeSample e c).beta = (c.beta || e.beta) := rfl
    have hmd : (mergeSample e c).depth = min c.depth e.depth := rfl
    refine ⟨?_, ?_, ?_, ?_, ?_, ?_⟩
    · rw [hf, hmf, List.any_cons]
      cases e.featured <;> cases c.featured <;> simp
    · rw [hb, hmb, List.any_cons]
      cases e.beta <;> cases c.beta <;> simp
    · rw [hfw, strTruthy_mergeSample, List.any_cons]
      cases strTruthy e.framework <;> cases strTruthy c.framework <;> simp
    · rcases hd with hd | ⟨c2, hc2, hd⟩
      · rw [hmd] at hd
        by_cases hcm : c.depth ≤ e.depth
        · exact Or.inr ⟨c, List.mem_cons_self c l, by omega⟩
        · exact Or.inl (by omega)
      · exact Or.inr ⟨c2, List.mem_cons_of_mem c hc2, hd⟩
    · rw [hmd] at hde
      omega
    · intro c2 hc2
      rcases List.mem_cons.mp hc2 with h2 | h2
      · subst h2
        rw [hmd] at hde
        omega
      · exact hdl c2 h2

theorem processSampleCodeNodes_no_sample :
    ∀ (nodes : List SampleNode) (acc : List ParsedSampleCode)
      (frameworkMap : List (String × String)) (featuredIds : List String)
      (fw : String) (depth : Nat), hasSampleCodeNode nodes = false →
      processSampleCodeNodes nodes acc frameworkMap featuredIds fw depth =
        acc := by
  intro nodes acc frameworkMap featuredIds fw depth
  induction nodes, acc, frameworkMap, featuredIds, fw, depth
    using processSampleCodeNodes.induct with
  | case1 acc m f fw d =>
    intro _
    simp [processSampleCodeNodes]
  | case2 acc m f fw d path title ty beta children rest hty ihc ihr =>
    intro h
    simp only [hasSampleCodeNode, Bool.or_eq_false_iff] at h
    obtain ⟨⟨hts, hcs⟩, hrs⟩ := h
    simp only [processSampleCodeNodes, if_pos hty]
    rw [ihc hcs] at ihr ⊢
    exact ihr hrs
  | case3 acc m f fw d path title ty beta children rest hty hsc ihr =>
    intro h
    simp only [hasSampleCodeNode, Bool.or_eq_false_iff] at h
    obtain ⟨⟨hts, hcs⟩, hrs⟩ := h
    rw [Bool.and_eq_true] at hsc
    rw [hsc.1] at hts
    exact absurd hts (by simp)
  | case4 acc m f fw d path title ty beta children rest hty hsc ihc ihr =>
    intro h
    simp only [hasSampleCodeNode, Bool.or_eq_false_iff] at h
    obtain ⟨⟨hts, hcs⟩, hrs⟩ := h
    simp only [processSampleCodeNodes, if_neg hty, if_neg hsc]
    rw [ihc hcs] at ihr ⊢
    exact ihr hrs

theorem findSymbolsRecursive_type_filter :
    ∀ (items : List IndexItem) (symbolType : String)
      (namePattern : Option String) (limit : Nat)
      (symbols : List IndexItem) (depth : Nat),
      symbolType ≠ "all" →
      ∀ x ∈ (findSymbolsRecursive items symbolType namePattern limit symbols
        depth).1, x ∈ symbols ∨ x.type = symbolType := by
  intro items symbolType namePattern limit symbols depth hall x hx
  unfold findSymbolsRecursive at hx
  by_cases h6 : 6 < depth
  · rw [if_pos h6] at hx
    exact Or.inl hx
  · rw [if_neg h6] at hx
    by_cases hsl : symbols.length ≤ limit
    · rw [(fsrItems_collect symbolType namePattern limit depth items symbols
        hsl).1] at hx
      have hx2 : x ∈ symbols ++ collectCapped symbolType namePattern depth items :=
        List.take_subset _ _ hx
      rcases List.mem_append.mp hx2 with h | h
      · exact Or.inl h
      · right
        have hm := mem_collectCapped symbolType namePattern depth items x h
        unfold itemMatches at hm
        rw [Bool.and_eq_true, Bool.or_eq_true] at hm
        rcases hm.1 with h1 | h1
        · exact absurd (by simpa using h1) hall
        · simpa using h1
    · rw [fsrItems_of_le symbolType namePattern limit depth items symbols
        (le_of_lt (Nat.lt_of_not_le hsl))] at hx
      exact Or.inl hx

/-- A lone grouping node, the counterexample input for C1. -/
def gNode : IndexItem := IndexItem.mk "/g" "Group" "groupMarker" false false []

/-- C1 counterexample: with the filter "all" (and no name pattern),
`findSymbolsRecursive` pushes the groupMarker node itself into the
collected symbols, so grouping nodes are returned as results there. -/
theorem findSymbolsRecursive_groupMarker_counterexample :
    (findSymbolsRecursive [gNode] "all" none 50 [] 0).1 = [gNode] ∧
    gNode.type = "groupMarker" := by
  constructor
  · simp [findSymbolsRecursive, fsrItems, pushIf, itemMatches, gNode,
      IndexItem.type, IndexItem.title]
  · rfl

/-- C1 (amended): `processSampleCodeNodes` never pushes a groupMarker node
— a forest with no sampleCode-typed node contributes nothing to the sample
list — and a groupMarker node only sets the ambient framework for its
children, then recurses. `findSymbolsRecursive`, by contrast, excludes
grouping nodes only when the symbolType filter is a specific type: every
collected node that was not already in the accumulator then has exactly
the filtered type (so none is a groupMarker unless that type was asked
for); with symbolType "all" grouping nodes are themselves returned, and
`findSymbolsRecursive` carries no category context at all. -/
theorem groupMarker_never_result :
    (∀ (items : List IndexItem) (symbolType : String)
        (namePattern : Option String) (limit : Nat)
        (symbols : List IndexItem) (depth : Nat),
        symbolType ≠ "all" → symbolType ≠ "groupMarker" →
        ∀ x ∈ (findSymbolsRecursive items symbolType namePattern limit
          symbols depth).1,
          x ∈ symbols ∨ (x.type = symbolType ∧ ¬ x.type = "groupMarker")) ∧
    (∀ (nodes : List SampleNode) (acc : List ParsedSampleCode)
        (frameworkMap : List (String × String)) (featuredIds : List String)
        (fw : String) (depth : Nat), hasSampleCodeNode nodes = false →
        processSampleCodeNodes nodes acc frameworkMap featuredIds fw depth =
          acc) ∧
    (∀ (path : Option String) (title : String) (beta : Bool)
        (children rest : List SampleNode) (acc : List ParsedSampleCode)
        (frameworkMap : List (String × String)) (featuredIds : List String)
        (fw : String) (depth : Nat),
        processSampleCodeNodes
            (SampleNode.mk path title "groupMarker" beta children :: rest)
            acc frameworkMap featuredIds fw depth =
          processSampleCodeNodes rest
            (processSampleCodeNodes children acc frameworkMap featuredIds
              (normalizeFramework title) (depth + 1))
            frameworkMap featuredIds fw depth) := by
  refine ⟨?_, processSampleCodeNodes_no_sample, ?_⟩
  · intro items symbolType namePattern limit symbols depth hall hgm x hx
    rcases findSymbolsRecursive_type_filter items symbolType namePattern limit
      symbols depth hall x hx with h | h
    · exact Or.inl h
    · exact Or.inr ⟨h, fun he => hgm (h ▸ he)⟩
  · intro path title beta children rest acc frameworkMap featuredIds fw depth
    simp [processSampleCodeNodes]

theorem groupMarker_never_result_witness :
    (IndexItem.mk "/a" "A" "class" false false [] ∈ ([] : List IndexItem) ∨
      ((IndexItem.mk "/a" "A" "class" false false []).type = "class" ∧
        ¬ (IndexItem.mk "/a" "A" "class" false false []).type =
          "groupMarker")) ∧
    processSampleCodeNodes [SampleNode.mk none "G" "groupMarker" false []]
        [] [] [] "" 0 = [] := by
  constructor
  · exact groupMarker_never_result.1
      [IndexItem.mk "/a" "A" "class" false false []] "class" none 50 [] 0
      (by decide) (by decide) _
      (by simp [findSymbolsRecursive, fsrItems, pushIf, itemMatches,
        IndexItem.type, IndexItem.title])
  · exact groupMarker_never_result.2.1
      [SampleNode.mk none "G" "groupMarker" false []] [] [] [] "" 0
      (by simp [hasSampleCodeNode])

/-- C8: for every flattened sample list and every path, the merged record
stored for that path has featured true exactly when some duplicate is
featured, beta true exactly when some duplicate is beta, a truthy
(defined, nonempty) framework exactly when some duplicate has one, and a
depth that is attained by and no larger than every duplicate's depth (the
minimum); in particular merging featured=false, beta=false with
featured=true, beta=true yields featured=true, beta=true. -/
theorem dedupe_merge_spec :
    (∀ (codes : List ParsedSampleCode) (p : String) (r : ParsedSampleCode),
        mapGet (dedupe codes) p = some r →
        r.featured =
          ((codes.filter fun c => c.path == p).any fun c => c.featured) ∧
        r.beta = ((codes.filter fun c => c.path == p).any fun c => c.beta) ∧
        strTruthy r.framework =
          ((codes.filter fun c => c.path == p).any fun c =>
            strTruthy c.framework) ∧
        (∃ c ∈ codes.filter (fun c => c.path == p), r.depth = c.depth) ∧
        (∀ c ∈ codes.filter (fun c => c.path == p), r.depth ≤ c.depth)) ∧
    mergeSample (ParsedSampleCode.mk "t" none none false false "u" "/p" 3)
        (ParsedSampleCode.mk "t" none none true true "u" "/p" 5) =
      ParsedSampleCode.mk "t" none none true true "u" "/p" 3 := by
  constructor
  · intro codes p r hr
    unfold dedupe at hr
    rw [foldl_dedupeStep_lookup] at hr
    cases hg : codes.filter (fun c => c.path == p) with
    | nil =>
      rw [hg] at hr
      simp only [List.foldl_nil, mapGet] at hr
      exact absurd hr (by simp)
    | cons g gs =>
      rw [hg] at hr
      simp only [List.foldl_cons, mapGet] at hr
      have hfirst : mergeOpt none g = some g := rfl
      rw [hfirst] at hr
      obtain ⟨hf, hb, hfw, hd, hde, hdl⟩ := mergeOpt_foldl_props gs g r hr
      refine ⟨?_, ?_, ?_, ?_, ?_⟩
      · rw [hf, List.any_cons]
      · rw [hb, List.any_cons]
      · rw [hfw, List.any_cons]
      · rcases hd with hd | ⟨c2, hc2, hd⟩
        · exact ⟨g, List.mem_cons_self g gs, hd⟩
        · exact ⟨c2, List.mem_cons_of_mem g hc2, hd⟩
      · intro c2 hc2
        rcases List.mem_cons.mp hc2 with h2 | h2
        · rw [h2]
          exact hde
        · exact hdl c2 h2
  · rfl

theorem dedupe_merge_spec_witness :
    (ParsedSampleCode.mk "t" none none true true "u" "/p" 3).featured =
      (([ParsedSampleCode.mk "t" none none false false "u" "/p" 3,
         ParsedSampleCode.mk "t" none none true true "u" "/p" 5].filter
          fun c => c.path == "/p").any fun c => c.featured) :=
  (dedupe_merge_spec.1
    [ParsedSampleCode.mk "t" none none false false "u" "/p" 3,
     ParsedSampleCode.mk "t" none none true true "u" "/p" 5] "/p"
    (ParsedSampleCode.mk "t" none none true true "u" "/p" 3) (by decide)).1

/-! ## URL conversion and the doc command's pre-fetch validation
(urls.ts lines 18-41 and doc.ts lines 29-41) -/

/-- The `webUrl.endsWith('/') ? webUrl.slice(0, -1) : webUrl` of urls.ts
line 20, over the char list. -/
def stripTrailingSlash (s : String) : String :=
  if s.data.getLast? = some '/' then String.mk s.data.dropLast else s

/-- Split at the first occurrence of "://": (scheme, remainder), none when
the separator is absent. -/
def splitScheme : List Char → Option (List Char × List Char)
  | [] => none
  | c :: cs =>
    if isPrefixOfChars [':', '/', '/'] (c :: cs) then
      some ([], (c :: cs).drop 3)
    else
      match splitScheme cs with
      | some (sch, rest) => some (c :: sch, rest)
      | none => none

/-- Minimal model of the URL parse behind `new URL` (urls.ts line 21) at
the granularity these claims need: scheme "://" hostname pathname, the
hostname being the authority up to the first '/' (lowercased, as the URL
parser lowercases hosts) and the pathname the rest ("/" when absent).
Parsing fails on a missing "://", an empty scheme or an empty host. Ports,
userinfo, query strings and non-authority schemes are below this model's
granularity. -/
def parseUrl (s : String) : Option (String × String) :=
  match splitScheme s.data with
  | none => none
  | some (scheme, hostPath) =>
    if scheme = [] then none
    else
      match splitFirstSlash hostPath with
      | some (host, path) =>
        if host = [] then none
        else some (String.mk (host.map Char.toLower), String.mk path)
      | none =>
        if hostPath = [] then none
        else some (String.mk (hostPath.map Char.toLower), "/")

/-- JS `String.prototype.replace` with a plain-string pattern and empty
replacement: remove the first occurrence of the pattern. -/
def removeFirst (pat : List Char) : List Char → List Char
  | [] => []
  | c :: cs =>
    if isPrefixOfChars pat (c :: cs) then (c :: cs).drop pat.length
    else c :: removeFirst pat cs

/-- `convertToJsonApiUrl` (urls.ts lines 18-41): null on a parse failure
or a host other than developer.apple.com; a path containing
/documentation/ or /tutorials/ is rewritten to the tutorials/data JSON
endpoint (the marker's first occurrence removed, as the string `replace`
does); any other path returns the original input unchanged. -/
def convertToJsonApiUrl (webUrl : String) : Option String :=
  match parseUrl (stripTrailingSlash webUrl) with
  | none => none
  | some (host, path) =>
    if host ≠ "developer.apple.com" then none
    else if containsSub path "/documentation/" then
      some ("https://developer.apple.com/tutorials/data/documentation/" ++
        String.mk (removeFirst "/documentation/".data path.data) ++ ".json")
    else if containsSub path "/tutorials/" then
      some ("https://developer.apple.com/tutorials/data/" ++
        String.mk (removeFirst "/tutorials/".data path.data) ++ ".json")
    else some webUrl

inductive DocAction where
  | reject (msg : String)
  | fetchUrl (url : String)
deriving Repr, DecidableEq

/-- The pre-fetch validation phase of `getAppleDocContent` (doc.ts lines
29-41): a substring test for the domain, then — only when the URL does not
contain ".json" — the conversion with its real host check; a null
conversion is rejected, anything else proceeds to the fetch. The JS
falsiness test `!jsonApiUrl` coincides with the null check here: every
string reaching it contains "developer.apple.com" and is nonempty. -/
def docPrefetch (url : String) : DocAction :=
  if !(containsSub url "developer.apple.com") then
    DocAction.reject "Error: URL must be from developer.apple.com"
  else
    match (if containsSub url ".json" then some url
           else convertToJsonApiUrl url) with
    | none => DocAction.reject "Error: Invalid Apple Developer Documentation URL"
    | some u => DocAction.fetchUrl u

/-- Whether the cleaned URL parses with host developer.apple.com. -/
def hostIsApple (url : String) : Bool :=
  match parseUrl (stripTrailingSlash url) with
  | some (host, _) => host == "developer.apple.com"
  | none => false

theorem docPrefetch_no_domain (url : String)
    (h : containsSub url "developer.apple.com" = false) :
    docPrefetch url =
      DocAction.reject "Error: URL must be from developer.apple.com" := by
  unfold docPrefetch
  rw [h]
  simp

theorem convertToJsonApiUrl_none_of_host (url : String)
    (h : hostIsApple url = false) : convertToJsonApiUrl url = none := by
  unfold convertToJsonApiUrl
  unfold hostIsApple at h
  cases hp : parseUrl (stripTrailingSlash url) with
  | none => rfl
  | some pr =>
    obtain ⟨host, path⟩ := pr
    rw [hp] at h
    have hne : host ≠ "developer.apple.com" := by simpa using h
    simp [hne]

theorem docPrefetch_invalid (url : String)
    (hdom : containsSub url "developer.apple.com" = true)
    (hjson : containsSub url ".json" = false)
    (hconv : convertToJsonApiUrl url = none) :
    docPrefetch url =
      DocAction.reject "Error: Invalid Apple Developer Documentation URL" := by
  unfold docPrefetch
  rw [hdom, hjson, hconv]
  simp

/-- C9 counterexample: a well-formed URL on a foreign host that contains
both "developer.apple.com" and ".json" as substrings is fetched as-is —
the substring domain check passes and the ".json" shortcut skips the real
host validation — so the wrong-domain input is not rejected before the
network call. -/
theorem docPrefetch_wrong_host_counterexample :
    parseUrl "https://evil.example/developer.apple.com/x.json" =
      some ("evil.example", "/developer.apple.com/x.json") ∧
    hostIsApple "https://evil.example/developer.apple.com/x.json" = false ∧
    docPrefetch "https://evil.example/developer.apple.com/x.json" =
      DocAction.fetchUrl "https://evil.example/developer.apple.com/x.json" := by
  refine ⟨by decide, by decide, by decide⟩

/-- C9 (amended): a URL not containing the substring "developer.apple.com"
is rejected before any fetch; a URL that contains that substring but not
".json" and whose parsed host is not developer.apple.com (or that does not
parse) is also rejected before any fetch; but a URL containing both
substrings proceeds to the fetch with no host validation at all, so
wrong-domain URLs are not always rejected. -/
theorem docPrefetch_reject_spec :
    (∀ url : String, containsSub url "developer.apple.com" = false →
        docPrefetch url =
          DocAction.reject "Error: URL must be from developer.apple.com") ∧
    (∀ url : String, containsSub url ".json" = false →
        hostIsApple url = false →
        ∃ msg, docPrefetch url = DocAction.reject msg) := by
  refine ⟨docPrefetch_no_domain, ?_⟩
  intro url hjson happle
  by_cases hdom : containsSub url "developer.apple.com" = true
  · exact ⟨_, docPrefetch_invalid url hdom hjson
      (convertToJsonApiUrl_none_of_host url happle)⟩
  · exact ⟨_, docPrefetch_no_domain url (by simpa using hdom)⟩

theorem docPrefetch_reject_spec_witness :
    docPrefetch "https://example.com/page" =
      DocAction.reject "Error: URL must be from developer.apple.com" ∧
    (∃ msg, docPrefetch "https://evil.example/developer.apple.com/page" =
      DocAction.reject msg) :=
  ⟨docPrefetch_reject_spec.1 "https://example.com/page" (by decide),
   docPrefetch_reject_spec.2 "https://evil.example/developer.apple.com/page"
     (by decide) (by decide)⟩
